import Mathlib

/-!
Shallow embedding of the pricing-normalization, catalog-generation and
workload-quantization core of the `hybrid_exp` repository
(`cloud_providers.py` and `hybrid.py`), together with theorems settling
the specification claims about it.

Price columns of the Amazon bulk data are modelled as rationals, tables as
lists of rows, pandas row filters as `List.filter`, the
group/unstack/fillna pipeline as a keyed first-match component lookup, and
Python exceptions as `Option` results.
-/

/-- A row of the (already column-renamed) Amazon EC2 pricing table, as read by
`read_amazon_ec2_data`: columns Type, Region, Price, OS, Unit, Rsv, Popt,
Tenancy, OfferingClass, Pdesc, Software, ECU.  The ECU column is `some n`
when the cell converts to an integer and `none` when the cell is
non-numeric (NaN or text such as "Variable"). -/
structure Row where
  type_ : String
  region : String
  price : ℚ
  os : String
  unit : String
  rsv : String
  popt : String
  tenancy : String
  offeringClass : String
  pdesc : String
  software : String
  ecu : Option ℕ
deriving DecidableEq

/-- Substring test on character lists, modelling pandas `Series.str.contains`
with a plain (regex-free) pattern. -/
def listHasInfix (pat : List Char) : List Char → Bool
  | [] => pat.isEmpty
  | c :: t => pat.isPrefixOf (c :: t) || listHasInfix pat t

/-- Column value `s` contains `pat` as a substring. -/
def strContains (s pat : String) : Bool :=
  listHasInfix pat.data s.data

/-- The grouping key of `get_amazon_ec2_prices`: the row multi-index
(Region, Tenancy, Rsv, Popt) that remains after the Unit level is unstacked
into columns. -/
structure PriceKey where
  region : String
  tenancy : String
  rsv : String
  popt : String
deriving DecidableEq

/-- Key of a row. -/
def keyOf (r : Row) : PriceKey :=
  ⟨r.region, r.tenancy, r.rsv, r.popt⟩

/-- The row filter of `get_amazon_ec2_prices` (cloud_providers.py lines
108-128): requested type and OS, no SQL software bundle, no "No Upfront" or
"Partial Upfront" purchase option, no "Unused" description, non-zero price,
Shared tenancy, not convertible. -/
def rowPasses (instName os : String) (r : Row) : Bool :=
  r.type_ == instName && strContains r.os os &&
  !strContains r.software "SQL" &&
  !strContains r.popt "No Upfront" &&
  !strContains r.popt "Partial Upfront" &&
  !strContains r.pdesc "Unused" &&
  !(r.price == 0) &&
  r.tenancy == "Shared" &&
  !(r.offeringClass == "convertible")

/-- The filtered table. -/
def filterRows (data : List Row) (instName os : String) : List Row :=
  data.filter (rowPasses instName os)

/-- The per-unit price component of a group after
`set_index(...).unstack(-1).fillna(0)`: the Price of the group's row with
the given billing unit ("Hrs" or "Quantity"), and 0 when the group has no
such row (the `fillna(0)` step).  The source data carries one row per
(type, region, purchase-option, unit) combination, so the first match is
the group's unique row. -/
def component (rows : List Row) (k : PriceKey) (u : String) : ℚ :=
  match rows.find? (fun r => keyOf r == k && r.unit == u) with
  | some r => r.price
  | none => 0

/-- Price per hour of one group (cloud_providers.py lines 140-153): for a
1-year reservation the upfront Quantity component is spread over 365*24
hours, for a 3-year reservation over 365*24*3 hours, and an on-demand group
keeps its hourly component. -/
def pricePerHour (rows : List Row) (k : PriceKey) : ℚ :=
  if k.rsv == "1yr" then
    component rows k "Hrs" + component rows k "Quantity" / 365 / 24
  else if k.rsv == "3yr" then
    component rows k "Hrs" + component rows k "Quantity" / 365 / 24 / 3
  else
    component rows k "Hrs"

/-- `get_amazon_ec2_prices`: filter the table, group it by
(Region, Tenancy, Rsv, Popt), and produce the per-group hourly price; the
outer merge keeps exactly the groups whose Rsv value is "1yr", "3yr" or
"No". -/
def get_amazon_ec2_prices (data : List Row) (instName os : String) :
    List (PriceKey × ℚ) :=
  let filtered := filterRows data instName os
  (((filtered.map keyOf).dedup).filter
    (fun k => k.rsv == "1yr" || k.rsv == "3yr" || k.rsv == "No")).map
    (fun k => (k, pricePerHour filtered k))

/-- Result of `get_simplified_amazon_prices`: two region-to-price
dictionaries. -/
structure SimplePrices where
  on_demand : List (String × ℚ)
  reserved : List (String × ℚ)
deriving DecidableEq

/-- `get_simplified_amazon_prices`: narrow the full mapping to the
on-demand cross-section (Shared, No, N/A) and the fully-upfront 1-year
reserved cross-section (Shared, 1yr, All Upfront), each keyed by region. -/
def get_simplified_amazon_prices (data : List Row) (instName os : String) :
    SimplePrices where
  on_demand :=
    (get_amazon_ec2_prices data instName os).filterMap (fun kp =>
      if kp.1.tenancy == "Shared" && kp.1.rsv == "No" && kp.1.popt == "N/A"
      then some (kp.1.region, kp.2) else none)
  reserved :=
    (get_amazon_ec2_prices data instName os).filterMap (fun kp =>
      if kp.1.tenancy == "Shared" && kp.1.rsv == "1yr" && kp.1.popt == "All Upfront"
      then some (kp.1.region, kp.2) else none)

/-- Python `dict.get(k, None)` on an association list. -/
def dictGet (d : List (String × ℚ)) (k : String) : Option ℚ :=
  (d.find? (fun p => p.1 == k)).map (fun p => p.2)

/-- Rows excluded by the normalizer according to the spec: SQL software,
partial or missing upfront purchase options, "Unused" descriptions, zero
prices, non-Shared tenancy, convertible offering class. -/
def excludedRow (r : Row) : Bool :=
  strContains r.software "SQL" || strContains r.popt "No Upfront" ||
  strContains r.popt "Partial Upfront" || strContains r.pdesc "Unused" ||
  r.price == 0 || !(r.tenancy == "Shared") || r.offeringClass == "convertible"

/-- Decimal digit characters, for the Lean rendering of Python
f-string number formatting. -/
def digChar : ℕ → Char
  | 0 => '0'
  | 1 => '1'
  | 2 => '2'
  | 3 => '3'
  | 4 => '4'
  | 5 => '5'
  | 6 => '6'
  | 7 => '7'
  | 8 => '8'
  | _ => '9'

/-- Fuelled digit accumulation; the fuel only bounds the recursion depth and
`n + 1` units are always enough. -/
def natStrGo : ℕ → ℕ → List Char → List Char
  | 0, _, acc => acc
  | fuel + 1, n, acc =>
    if n < 10 then digChar n :: acc
    else natStrGo fuel (n / 10) (digChar (n % 10) :: acc)

/-- Decimal rendering of a natural number, modelling Python `str(n)` inside
an f-string. -/
def natStr (n : ℕ) : String :=
  ⟨natStrGo (n + 1) n []⟩

/-- Numeric value of a digit character. -/
def digVal (c : Char) : ℕ :=
  c.toNat - 48

/-- Numeric value of a decimal digit string. -/
def listVal (l : List Char) : ℕ :=
  l.foldl (fun a c => a * 10 + digVal c) 0

/-- Number of underscore characters in a character list; on-demand ids
contain one more than the region name, reserved ids three more than twice
the region name. -/
def uCount (l : List Char) : ℕ :=
  l.countP (fun c => c == '_')

/-- A malloovia `LimitingSet`: a named shared quota over a group of
instance classes. -/
structure LimitingSet where
  id : String
  name : String
  max_vms : ℕ
deriving DecidableEq

/-- A malloovia `InstanceClass` as constructed by
`generate_amazon_region_instances`. -/
structure InstanceClass where
  id : String
  name : String
  limiting_sets : List LimitingSet
  price : ℚ
  max_vms : ℕ
  is_reserved : Bool
  time_unit : String
deriving DecidableEq

/-- Code-point comparison of strings, modelling Python `sorted` order on
the instance-name strings. -/
def strLeGo : List Char → List Char → Bool
  | [], _ => true
  | _ :: _, [] => false
  | a :: as, b :: bs =>
    if a.toNat < b.toNat then true
    else if b.toNat < a.toNat then false
    else strLeGo as bs

/-- String order used by the catalog builder's `sorted(instance_names)`. -/
def strLe (a b : String) : Bool :=
  strLeGo a.data b.data

/-- Insertion into a sorted list (stable for the identical-strings case). -/
def insertSorted (a : String) : List String → List String
  | [] => [a]
  | b :: t => if strLe a b then a :: b :: t else b :: insertSorted a t

/-- A stable sort by code-point order, modelling Python `sorted`. -/
def pySorted : List String → List String
  | [] => []
  | a :: t => insertSorted a (pySorted t)

/-- `sorted(instance_names)` followed by the key collapsing performed by
the `region_data` dict: one key per distinct name. -/
def sortedNames (l : List String) : List String :=
  (pySorted l).dedup

/-- The region-level limiting set (cloud_providers.py lines 204-205), one
per call, shared by every on-demand entry of the region. -/
def regionLS (region_name : String) (max_inst_per_group : ℕ) : LimitingSet :=
  ⟨region_name, region_name, max_inst_per_group⟩

/-- The availability-zone limiting set `f"{region_name}_AZ{z}"`
(cloud_providers.py lines 217-221). -/
def zoneLS (region_name : String) (max_inst_per_group z : ℕ) : LimitingSet :=
  ⟨region_name ++ "_AZ" ++ natStr z, region_name ++ "_AZ" ++ natStr z,
    max_inst_per_group⟩

/-- The list of zone limiting sets for `z` in `range(1, availability_zones + 1)`. -/
def zonesOf (region_name : String) (max_inst_per_group availability_zones : ℕ) :
    List LimitingSet :=
  (List.range availability_zones).map
    (fun z => zoneLS region_name max_inst_per_group (z + 1))

/-- The on-demand price the builder looks up for one instance name. -/
def odPriceOf (data : List Row) (region_name instName : String) : Option ℚ :=
  dictGet (get_simplified_amazon_prices data instName "Linux").on_demand region_name

/-- The reserved price the builder looks up for one instance name. -/
def resPriceOf (data : List Row) (region_name instName : String) : Option ℚ :=
  dictGet (get_simplified_amazon_prices data instName "Linux").reserved region_name

/-- The on-demand entry emitted for one instance name
(cloud_providers.py lines 209-214). -/
def mkOd (region_name : String) (max_inst_per_group : ℕ) (instName : String)
    (p : ℚ) (max_vms : ℕ) : InstanceClass :=
  { id := instName ++ "_" ++ region_name
    name := instName
    limiting_sets := [regionLS region_name max_inst_per_group]
    price := p
    max_vms := max_vms
    is_reserved := false
    time_unit := "h" }

/-- The reserved entry emitted for one instance name and zone
(cloud_providers.py lines 226-231). -/
def mkRes (region_name instName : String) (p : ℚ) (zone : LimitingSet) :
    InstanceClass :=
  { id := instName ++ "_" ++ region_name ++ "_" ++ zone.name
    name := instName
    limiting_sets := [zone]
    price := p
    max_vms := 0
    is_reserved := true
    time_unit := "h" }

/-- The first loop of `generate_amazon_region_instances` (lines 206-214):
one on-demand entry per name with an on-demand price in the region, all
referencing the one region limiting set; the `continue` on a missing price
is the `none` case of the lookup. -/
def odEntries (data : List Row) (region_name : String)
    (max_inst_per_type max_inst_per_group : ℕ) (names : List String) :
    List InstanceClass :=
  names.filterMap (fun i =>
    (odPriceOf data region_name i).map (fun p =>
      mkOd region_name max_inst_per_group i p max_inst_per_type))

/-- The second loop of `generate_amazon_region_instances` (lines 222-231):
per name with a reserved price, one reserved entry per availability zone,
each referencing that zone's limiting set. -/
def resEntries (data : List Row) (region_name : String)
    (max_inst_per_group availability_zones : ℕ) (names : List String) :
    List InstanceClass :=
  (names.map (fun i =>
    (zonesOf region_name max_inst_per_group availability_zones).filterMap
      (fun zone =>
        (resPriceOf data region_name i).map (fun p =>
          mkRes region_name i p zone)))).flatten

/-- `generate_amazon_region_instances`: per sorted instance name, look up
the simplified prices, skip names with no price in the region, and emit the
on-demand entries (sharing the single region limiting set) followed by the
reserved entries (one per zone, each with its own zone limiting set). -/
def generate_amazon_region_instances (data : List Row) (region_name : String)
    (max_inst_per_type max_inst_per_group availability_zones : ℕ)
    (instance_names : List String) : List InstanceClass :=
  odEntries data region_name max_inst_per_type max_inst_per_group
      (sortedNames instance_names) ++
    resEntries data region_name max_inst_per_group availability_zones
      (sortedNames instance_names)

/-- Python `reduce(math.gcd, l)`: `none` on an empty list (a TypeError),
otherwise the fold of `Nat.gcd` over the list started at its head. -/
def reduceGcd : List ℕ → Option ℕ
  | [] => none
  | x :: xs => some (xs.foldl Nat.gcd x)

/-- Option-valued map with Python's fail-fast exception semantics: the
whole computation yields nothing as soon as one element fails. -/
def mapOpt {α β : Type} (f : α → Option β) : List α → Option (List β)
  | [] => some []
  | x :: xs =>
    match f x, mapOpt f xs with
    | some y, some ys => some (y :: ys)
    | _, _ => none

/-- `get_quanta` (hybrid.py lines 111-125): one GCD per app, multiplied by
the quantization factor; an empty performance list aborts with an
exception, modelled as `none`. -/
def get_quanta (perf_list : List (List ℕ)) (quant_factor : ℕ) :
    Option (List ℕ) :=
  (mapOpt reduceGcd perf_list).map (fun qs => qs.map (fun q => q * quant_factor))

/-- Python `max(workload)` for the nonempty workloads the code reads. -/
def maxOf (l : List ℕ) : ℕ :=
  l.foldl max 0

/-- The grid `list(range(0, max(workload) + quantum, quantum))` of
hybrid.py line 132: multiples of `q` below `maxOf w + q`. -/
def levelsFor (w : List ℕ) (q : ℕ) : List ℕ :=
  (List.range ((maxOf w + 2 * q - 1) / q)).map (fun k => k * q)

/-- `np.take(levels, np.digitize(workload, levels, right=True))`: each value
is replaced by the level indexed by the number of strictly smaller grid
points, i.e. the smallest level that is ≥ it. -/
def digitizeTake (w : List ℕ) (q : ℕ) : List ℕ :=
  w.map (fun x =>
    (levelsFor w q).getD ((levelsFor w q).countP (fun b => b < x)) 0)

/-- `discretize_levels` (hybrid.py lines 127-135): the length assertion, the
per-series grid construction and digitization; a mismatch, an empty series
(`max` of an empty sequence) or a zero quantum (`range` with step 0) raises,
modelled as `none`. -/
def discretize_levels (workloads : List (List ℕ)) (quanta : List ℕ) :
    Option (List (List ℕ)) :=
  if workloads.length = quanta.length then
    if workloads.all (fun w => !w.isEmpty) && quanta.all (fun q => !(q == 0)) then
      some ((workloads.zip quanta).map (fun wq => digitizeTake wq.1 wq.2))
    else none
  else none

/-- Python list repetition `l * n`. -/
def pyRepeat {α : Type} (l : List α) (n : ℕ) : List α :=
  (List.replicate n l).flatten

/-- The quantization step of `solve_problem` (hybrid.py lines 208-212): for
a non-zero factor the workloads are discretized and repeated, otherwise the
raw workloads are repeated unchanged. -/
def quantize_step (wls : List (List ℕ)) (quanta : List ℕ)
    (quant_factor factor_repeat : ℕ) : Option (List (List ℕ)) :=
  if quant_factor ≠ 0 then
    (discretize_levels wls quanta).map (fun ws => pyRepeat ws factor_repeat)
  else
    some (pyRepeat wls factor_repeat)

/-- The ECU lookup of `get_perfs` (hybrid.py lines 67-70):
`int(amazon_ec2_data[amazon_ec2_data.Type == ic.name]['ECU'].iloc[0])` with
the caller-supplied private-cloud default on any failure — no matching row
(IndexError) or a non-numeric first cell (ValueError). -/
def ecuFor (data : List Row) (name : String) (priv_ecus : ℕ) : ℕ :=
  match (data.find? (fun r => r.type_ == name)).bind (fun r => r.ecu) with
  | some e => e
  | none => priv_ecus

/-- `get_perfs` (hybrid.py lines 56-81): per instance class, the
performance of each app is its per-ECU baseline times the ECU count times
the performance factor. -/
def get_perfs (data : List Row) (ics : List InstanceClass)
    (apps : List String) (perf_factor : ℕ) (perfs_per_ecu : List ℕ)
    (priv_ecus : ℕ) : List (InstanceClass × List (String × ℕ)) :=
  ics.map (fun ic =>
    (ic, (apps.zip perfs_per_ecu).map
      (fun ap => (ap.1, ap.2 * ecuFor data ic.name priv_ecus * perf_factor))))

/-- Concrete table used by witnesses: a single fully-passing 1-year
all-upfront row with hourly price 2 and a separate on-demand row with
hourly price 1. -/
def wRow1yr : Row :=
  { type_ := "t", region := "R", price := 2, os := "Linux", unit := "Hrs",
    rsv := "1yr", popt := "All Upfront", tenancy := "Shared",
    offeringClass := "standard", pdesc := "d", software := "NA", ecu := none }

/-- Concrete on-demand row for witnesses. -/
def wRowOd : Row :=
  { type_ := "t", region := "R", price := 1, os := "Linux", unit := "Hrs",
    rsv := "No", popt := "N/A", tenancy := "Shared",
    offeringClass := "standard", pdesc := "d", software := "NA", ecu := some 8 }

/-- On-demand row used by the id-collision counterexample: an instance
type whose name already contains the region and zone suffix. -/
def cRowOd : Row :=
  { type_ := "a_AZ1_AZ1", region := "AZ1", price := 1, os := "Linux",
    unit := "Hrs", rsv := "No", popt := "N/A", tenancy := "Shared",
    offeringClass := "standard", pdesc := "d", software := "NA", ecu := none }

/-- Reserved row used by the id-collision counterexample. -/
def cRowRes : Row :=
  { type_ := "a", region := "AZ1", price := 2, os := "Linux", unit := "Hrs",
    rsv := "1yr", popt := "All Upfront", tenancy := "Shared",
    offeringClass := "standard", pdesc := "d", software := "NA", ecu := none }

/-- Concrete instance class used by the ECU-default witness; its name "t"
matches `wRow1yr`, whose ECU cell is non-numeric. -/
def wIc : InstanceClass :=
  { id := "t_R", name := "t", limiting_sets := [], price := 1, max_vms := 20,
    is_reserved := false, time_unit := "h" }

/-- The on-demand entry the builder emits for the concrete two-row table. -/
def wOdEntry : InstanceClass :=
  mkOd "R" 7 "t"
    (pricePerHour (filterRows [wRow1yr, wRowOd] "t" "Linux")
      ⟨"R", "Shared", "No", "N/A"⟩) 5

/-- The reserved entry the builder emits for the concrete two-row table. -/
def wResEntry : InstanceClass :=
  mkRes "R" "t"
    (pricePerHour (filterRows [wRow1yr, wRowOd] "t" "Linux")
      ⟨"R", "Shared", "1yr", "All Upfront"⟩) (zoneLS "R" 7 1)

theorem rowPasses_not_excluded (instName os : String) (r : Row)
    (h : rowPasses instName os r = true) : excludedRow r = false := by
  unfold rowPasses at h
  simp only [Bool.and_eq_true, Bool.not_eq_eq_eq_not, Bool.not_true,
    beq_iff_eq] at h
  obtain ⟨⟨⟨⟨⟨⟨⟨⟨-, -⟩, h1⟩, h2⟩, h3⟩, h4⟩, h5⟩, h6⟩, h7⟩ := h
  unfold excludedRow
  simp [h1, h2, h3, h4, h5, h6, h7]

theorem filter_filter_of_imp {α : Type} (p q : α → Bool)
    (h : ∀ a, p a = true → q a = true) (l : List α) :
    (l.filter q).filter p = l.filter p := by
  induction l with
  | nil => rfl
  | cons a t ih =>
    by_cases hp : p a = true
    · have hq := h a hp
      simp [List.filter_cons, hp, hq, ih]
    · have hp' : p a = false := by
        cases hpa : p a
        · rfl
        · exact absurd hpa hp
      cases hqa : q a <;> simp [List.filter_cons, hp', hqa, ih]

theorem filterRows_drop_excluded (data : List Row) (instName os : String) :
    filterRows (data.filter (fun r => !excludedRow r)) instName os =
      filterRows data instName os := by
  unfold filterRows
  exact filter_filter_of_imp _ _
    (fun r hr => by
      have := rowPasses_not_excluded instName os r hr
      simp [this]) data

/-- C2: no row whose software field contains "SQL", or whose purchase
option contains "No Upfront" or "Partial Upfront", or whose description
contains "Unused", or whose price is zero, or whose tenancy is not
"Shared", or whose offering class is "convertible", contributes to any
price in the normalizer's output mapping: deleting every such row from the
raw table leaves the output of `get_amazon_ec2_prices` unchanged, for every
table, instance type and OS filter. -/
theorem c2_excluded_rows_never_contribute (data : List Row) (instName os : String) :
    get_amazon_ec2_prices (data.filter (fun r => !excludedRow r)) instName os =
      get_amazon_ec2_prices data instName os := by
  unfold get_amazon_ec2_prices
  rw [filterRows_drop_excluded]

/-- C1: in the normalizer's output mapping, a 1-year-reserved group's price
is its hourly component plus its upfront component divided by 8760, a
3-year group's price is its hourly component plus its upfront component
divided by 26280, and an on-demand group's price is exactly its hourly
component; a missing component is 0 by construction of `component`. -/
theorem c1_hourly_price_formula (data : List Row) (instName os : String)
    (k : PriceKey) (p : ℚ)
    (hmem : (k, p) ∈ get_amazon_ec2_prices data instName os) :
    (k.rsv = "1yr" →
      p = component (filterRows data instName os) k "Hrs" +
          component (filterRows data instName os) k "Quantity" / 8760) ∧
    (k.rsv = "3yr" →
      p = component (filterRows data instName os) k "Hrs" +
          component (filterRows data instName os) k "Quantity" / 26280) ∧
    (k.rsv = "No" →
      p = component (filterRows data instName os) k "Hrs") := by
  unfold get_amazon_ec2_prices at hmem
  simp only [List.mem_map, List.mem_filter] at hmem
  obtain ⟨k', ⟨-, -⟩, hk⟩ := hmem
  have hkk : k' = k := congrArg Prod.fst hk
  subst hkk
  have hp : p = pricePerHour (filterRows data instName os) k' :=
    (congrArg Prod.snd hk).symm
  subst hp
  refine ⟨fun h1 => ?_, fun h3 => ?_, fun hn => ?_⟩
  · unfold pricePerHour
    rw [if_pos (by simp [h1])]
    rw [div_div]
    norm_num
  · unfold pricePerHour
    rw [if_neg (by simp [h3]), if_pos (by simp [h3])]
    rw [div_div, div_div]
    norm_num
  · unfold pricePerHour
    rw [if_neg (by simp [hn]), if_neg (by simp [hn])]

/-- Witness for C1: the concrete 1-year group of the two-row table is in
the normalizer's output and its price satisfies the 8760-hour formula. -/
theorem c1_hourly_price_formula_witness :
    ((⟨"R", "Shared", "1yr", "All Upfront"⟩ : PriceKey),
        pricePerHour (filterRows [wRow1yr, wRowOd] "t" "Linux")
          ⟨"R", "Shared", "1yr", "All Upfront"⟩) ∈
      get_amazon_ec2_prices [wRow1yr, wRowOd] "t" "Linux" ∧
    pricePerHour (filterRows [wRow1yr, wRowOd] "t" "Linux")
        ⟨"R", "Shared", "1yr", "All Upfront"⟩ =
      component (filterRows [wRow1yr, wRowOd] "t" "Linux")
          ⟨"R", "Shared", "1yr", "All Upfront"⟩ "Hrs" +
        component (filterRows [wRow1yr, wRowOd] "t" "Linux")
          ⟨"R", "Shared", "1yr", "All Upfront"⟩ "Quantity" / 8760 := by
  have hmem :
      ((⟨"R", "Shared", "1yr", "All Upfront"⟩ : PriceKey),
          pricePerHour (filterRows [wRow1yr, wRowOd] "t" "Linux")
            ⟨"R", "Shared", "1yr", "All Upfront"⟩) ∈
        get_amazon_ec2_prices [wRow1yr, wRowOd] "t" "Linux" :=
    List.Mem.head _
  exact ⟨hmem,
    (c1_hourly_price_formula [wRow1yr, wRowOd] "t" "Linux" _ _ hmem).1 rfl⟩

theorem le_foldl_max (l : List ℕ) (a : ℕ) : a ≤ l.foldl max a := by
  induction l generalizing a with
  | nil => exact le_refl a
  | cons b t ih => exact le_trans (le_max_left a b) (ih (max a b))

theorem mem_le_foldl_max {x : ℕ} {l : List ℕ} (a : ℕ) (hx : x ∈ l) :
    x ≤ l.foldl max a := by
  induction l generalizing a with
  | nil => cases hx
  | cons b t ih =>
    rcases List.mem_cons.mp hx with h | h
    · subst h
      exact le_trans (le_max_right a x) (le_foldl_max t (max a x))
    · exact ih (max a b) h

theorem le_maxOf {x : ℕ} {l : List ℕ} (hx : x ∈ l) : x ≤ maxOf l :=
  mem_le_foldl_max 0 hx

theorem countP_range_lt (c n : ℕ) :
    (List.range n).countP (fun k => decide (k < c)) = min c n := by
  induction n with
  | zero => simp
  | succ n ih =>
    rw [List.range_succ, List.countP_append, ih]
    by_cases h : n < c <;> simp [List.countP_cons, h] <;> omega

theorem lt_ceil_iff {q : ℕ} (hq : 0 < q) (x k : ℕ) :
    k * q < x ↔ k < (x + q - 1) / q := by
  constructor
  · intro h
    have hmul : (k + 1) * q = k * q + q := by ring
    have h2 : (k + 1) * q ≤ x + q - 1 := by omega
    have h3 := (Nat.le_div_iff_mul_le hq).mpr h2
    omega
  · intro h
    by_cases hx : x = 0
    · subst hx
      rw [Nat.div_eq_of_lt (by omega)] at h
      omega
    · have h1 : (k + 1) * q ≤ x + q - 1 := (Nat.le_div_iff_mul_le hq).mp (by omega)
      have hmul : (k + 1) * q = k * q + q := by ring
      omega

theorem getD_levels {n c : ℕ} (q : ℕ) (h : c < n) :
    ((List.range n).map (fun k => k * q)).getD c 0 = c * q := by
  have hlen : c < ((List.range n).map (fun k => k * q)).length := by
    simpa using h
  rw [List.getD_eq_getElem _ _ hlen]
  simp

theorem digitize_point {w : List ℕ} {q x : ℕ} (hq : 0 < q) (hx : x ∈ w) :
    (levelsFor w q).getD ((levelsFor w q).countP (fun b => b < x)) 0 =
      ((x + q - 1) / q) * q := by
  have hxM : x ≤ maxOf w := le_maxOf hx
  have hcount : (levelsFor w q).countP (fun b => b < x) =
      min ((x + q - 1) / q) ((maxOf w + 2 * q - 1) / q) := by
    unfold levelsFor
    rw [List.countP_map]
    have hpt : ∀ k ∈ List.range ((maxOf w + 2 * q - 1) / q),
        ((fun b => decide (b < x)) ∘ (fun k => k * q)) k = true ↔
          (fun k => decide (k < (x + q - 1) / q)) k = true := by
      intro k _
      simp only [Function.comp_apply, decide_eq_true_eq]
      exact lt_ceil_iff hq x k
    rw [List.countP_congr hpt, countP_range_lt]
  have hcn : (x + q - 1) / q < (maxOf w + 2 * q - 1) / q := by
    have h1 : (x + q - 1) / q ≤ (maxOf w + q - 1) / q :=
      Nat.div_le_div_right (by omega)
    have h3 : (maxOf w + q - 1 + q) / q = (maxOf w + q - 1) / q + 1 :=
      Nat.add_div_right _ hq
    have h2 : maxOf w + q - 1 + q = maxOf w + 2 * q - 1 := by omega
    rw [← h2, h3]
    omega
  rw [hcount, min_eq_left (le_of_lt hcn)]
  unfold levelsFor
  exact getD_levels q hcn

theorem ceil_mul_ge {q : ℕ} (hq : 0 < q) (x : ℕ) :
    x ≤ ((x + q - 1) / q) * q := by
  by_contra h
  push_neg at h
  have := (lt_ceil_iff hq x ((x + q - 1) / q)).mp h
  omega

theorem ceil_mul_le {q : ℕ} (hq : 0 < q) {x m : ℕ} (hdvd : q ∣ m)
    (hxm : x ≤ m) : ((x + q - 1) / q) * q ≤ m := by
  obtain ⟨t, rfl⟩ := hdvd
  have hnt : ¬ t < (x + q - 1) / q := by
    intro hlt
    have := (lt_ceil_iff hq x t).mpr hlt
    have hc : t * q = q * t := Nat.mul_comm t q
    omega
  have hle : (x + q - 1) / q ≤ t := not_lt.mp hnt
  calc ((x + q - 1) / q) * q ≤ t * q := Nat.mul_le_mul_right q hle
    _ = q * t := Nat.mul_comm t q

theorem discretize_some_cases {ws : List (List ℕ)} {qs : List ℕ}
    {out : List (List ℕ)} (h : discretize_levels ws qs = some out) :
    ws.length = qs.length ∧
    out = (ws.zip qs).map (fun wq => digitizeTake wq.1 wq.2) ∧
    (∀ w ∈ ws, w ≠ []) ∧ (∀ q ∈ qs, 0 < q) := by
  unfold discretize_levels at h
  split_ifs at h with h1 h2
  rw [Bool.and_eq_true] at h2
  refine ⟨h1, (Option.some_inj.mp h).symm, ?_, ?_⟩
  · intro w hw
    have := (List.all_eq_true.mp h2.1) w hw
    simpa using this
  · intro q hq
    have := (List.all_eq_true.mp h2.2) q hq
    simp only [Bool.not_eq_eq_eq_not, Bool.not_true, beq_eq_false_iff_ne,
      ne_eq] at this
    omega

theorem digitizeTake_getD {w : List ℕ} {q : ℕ} (hq : 0 < q) :
    (digitizeTake w q).length = w.length ∧
    ∀ j, j < w.length →
      (digitizeTake w q).getD j 0 = ((w.getD j 0 + q - 1) / q) * q := by
  constructor
  · simp [digitizeTake]
  · intro j hj
    unfold digitizeTake
    have hlen : j < (w.map fun x =>
        (levelsFor w q).getD ((levelsFor w q).countP (fun b => b < x)) 0).length := by
      simpa using hj
    rw [List.getD_eq_getElem _ _ hlen, List.getElem_map,
      List.getD_eq_getElem _ _ hj]
    exact digitize_point hq (List.getElem_mem hj)

/-- C7: whenever `discretize_levels` succeeds, the output has one series per
input series, each output series has the length of its input series, and
each output value is the smallest multiple of the series' quantum that is
greater than or equal to the corresponding input value (hence a
non-negative multiple of the quantum and never smaller than the input);
in particular the demand series [0, 499, 500, 501] with quantum 500 maps
to [0, 500, 500, 1000]. -/
theorem c7_discretize_rounds_up :
    (∀ (ws : List (List ℕ)) (qs : List ℕ) (out : List (List ℕ)),
      discretize_levels ws qs = some out →
      out.length = ws.length ∧
      ∀ i, i < ws.length →
        (out.getD i []).length = (ws.getD i []).length ∧
        ∀ j, j < (ws.getD i []).length →
          qs.getD i 0 ∣ (out.getD i []).getD j 0 ∧
          (ws.getD i []).getD j 0 ≤ (out.getD i []).getD j 0 ∧
          ∀ m, qs.getD i 0 ∣ m → (ws.getD i []).getD j 0 ≤ m →
            (out.getD i []).getD j 0 ≤ m) ∧
    discretize_levels [[0, 499, 500, 501]] [500] =
      some [[0, 500, 500, 1000]] := by
  constructor
  · intro ws qs out h
    obtain ⟨hlen, hout, -, hqpos⟩ := discretize_some_cases h
    subst hout
    have hlo : ((ws.zip qs).map (fun wq => digitizeTake wq.1 wq.2)).length =
        ws.length := by
      simp [List.length_zip, hlen]
    refine ⟨hlo, ?_⟩
    intro i hi
    have hiq : i < qs.length := hlen ▸ hi
    have hoi : i < ((ws.zip qs).map (fun wq => digitizeTake wq.1 wq.2)).length := by
      rwa [hlo]
    have hzi : i < (ws.zip qs).length := by
      simp only [List.length_zip]
      omega
    have houtD : ((ws.zip qs).map (fun wq => digitizeTake wq.1 wq.2)).getD i [] =
        digitizeTake (ws.getD i []) (qs.getD i 0) := by
      rw [List.getD_eq_getElem _ _ hoi, List.getElem_map, List.getElem_zip,
        List.getD_eq_getElem _ _ hi, List.getD_eq_getElem _ _ hiq]
    have hqi : 0 < qs.getD i 0 := by
      apply hqpos
      rw [List.getD_eq_getElem _ _ hiq]
      exact List.getElem_mem hiq
    obtain ⟨hdl, hdv⟩ := digitizeTake_getD (w := ws.getD i []) hqi
    rw [houtD]
    refine ⟨hdl, ?_⟩
    intro j hj
    rw [hdv j hj]
    exact ⟨dvd_mul_left _ _, ceil_mul_ge hqi _,
      fun m hm hxm => ceil_mul_le hqi hm hxm⟩
  · decide

/-- Witness for C7: the general theorem applied to the series [3, 7] with
quantum 2. -/
theorem c7_discretize_rounds_up_witness :
    discretize_levels [[3, 7]] [2] = some [[4, 8]] ∧
    ([[4, 8] ] : List (List ℕ)).length = [[3, 7]].length :=
  ⟨by decide,
    (c7_discretize_rounds_up.1 [[3, 7]] [2] [[4, 8]] (by decide)).1⟩

/-- C8: with quantization factor zero the quantization step of
`solve_problem` passes the raw workloads through: the result is the
repeated raw list, it does not depend on the quanta (discretization is not
applied), and its first `wls.length` series — the ones paired with the
apps — are exactly the raw input series. -/
theorem c8_zero_factor_identity (wls : List (List ℕ))
    (quanta quanta2 : List ℕ) (fr : ℕ) (hfr : 0 < fr) :
    quantize_step wls quanta 0 fr = some (pyRepeat wls fr) ∧
    quantize_step wls quanta 0 fr = quantize_step wls quanta2 0 fr ∧
    (pyRepeat wls fr).take wls.length = wls := by
  refine ⟨by simp [quantize_step], by simp [quantize_step], ?_⟩
  obtain ⟨k, rfl⟩ : ∃ k, fr = k + 1 := ⟨fr - 1, by omega⟩
  unfold pyRepeat
  rw [List.replicate_succ, List.flatten_cons]
  exact List.take_left _ _

/-- Witness for C8: factor 0 on a one-series workload. -/
theorem c8_zero_factor_identity_witness :
    quantize_step [[5]] [3] 0 2 = some (pyRepeat [[5]] 2) ∧
    (pyRepeat ([[5]] : List (List ℕ)) 2).take 1 = [[5]] :=
  ⟨(c8_zero_factor_identity [[5]] [3] [9] 2 (by decide)).1,
    (c8_zero_factor_identity [[5]] [3] [9] 2 (by decide)).2.2⟩

theorem mapOpt_eq_none_of_mem {α β : Type} {f : α → Option β} {l : List α}
    {a : α} (ha : a ∈ l) (hf : f a = none) : mapOpt f l = none := by
  induction l with
  | nil => cases ha
  | cons x xs ih =>
    rcases List.mem_cons.mp ha with h | h
    · subst h
      unfold mapOpt
      rw [hf]
    · unfold mapOpt
      rw [ih h]
      cases f x <;> rfl

/-- C9: a workload/quanta length mismatch makes `discretize_levels` abort
with no output at all, and an empty performance list makes `get_quanta`
abort with no output at all. -/
theorem c9_shape_mismatch_aborts (ws : List (List ℕ)) (qs : List ℕ)
    (pl : List (List ℕ)) (f : ℕ) :
    (ws.length ≠ qs.length → discretize_levels ws qs = none) ∧
    ([] ∈ pl → get_quanta pl f = none) := by
  constructor
  · intro h
    unfold discretize_levels
    rw [if_neg h]
  · intro h
    unfold get_quanta
    rw [mapOpt_eq_none_of_mem h rfl]
    rfl

/-- Witness for C9: one series against zero quanta, and a performance list
holding one empty list. -/
theorem c9_shape_mismatch_aborts_witness :
    discretize_levels [[1]] [] = none ∧ get_quanta [[]] 3 = none :=
  ⟨(c9_shape_mismatch_aborts [[1]] [] [[]] 3).1 (by decide),
    (c9_shape_mismatch_aborts [[1]] [] [[]] 3).2 (by decide)⟩

theorem foldl_gcd_dvd (xs : List ℕ) (x : ℕ) :
    (xs.foldl Nat.gcd x ∣ x) ∧ ∀ p ∈ xs, xs.foldl Nat.gcd x ∣ p := by
  induction xs generalizing x with
  | nil => exact ⟨dvd_refl x, by simp⟩
  | cons y ys ih =>
    obtain ⟨h1, h2⟩ := ih (Nat.gcd x y)
    refine ⟨h1.trans (Nat.gcd_dvd_left x y), ?_⟩
    intro p hp
    rcases List.mem_cons.mp hp with rfl | hp
    · exact h1.trans (Nat.gcd_dvd_right x p)
    · exact h2 p hp

theorem dvd_foldl_gcd (xs : List ℕ) (x d : ℕ) (hx : d ∣ x)
    (hxs : ∀ p ∈ xs, d ∣ p) : d ∣ xs.foldl Nat.gcd x := by
  induction xs generalizing x with
  | nil => exact hx
  | cons y ys ih =>
    exact ih (Nat.gcd x y) (Nat.dvd_gcd hx (hxs y (by simp)))
      (fun p hp => hxs p (by simp [hp]))


theorem mapOpt_getD {α β : Type} {f : α → Option β} (da : α) (db : β) :
    ∀ {l : List α} {ys : List β}, mapOpt f l = some ys →
      ys.length = l.length ∧
      ∀ i, i < l.length → f (l.getD i da) = some (ys.getD i db) := by
  intro l
  induction l with
  | nil =>
    intro ys h
    obtain rfl := Option.some_inj.mp h
    exact ⟨rfl, fun i hi => absurd hi (by simp)⟩
  | cons x xs ih =>
    intro ys h
    unfold mapOpt at h
    cases hfx : f x with
    | none =>
      rw [hfx] at h
      cases hm : mapOpt f xs <;> rw [hm] at h <;> cases h
    | some y =>
      rw [hfx] at h
      cases hm : mapOpt f xs with
      | none =>
        rw [hm] at h
        cases h
      | some ys' =>
        rw [hm] at h
        obtain rfl := Option.some_inj.mp h
        obtain ⟨hl, hp⟩ := ih hm
        refine ⟨by simp [hl], ?_⟩
        intro i hi
        cases i with
        | zero => simpa using hfx
        | succ n =>
          simp only [List.getD_cons_succ]
          exact hp n (by simpa using hi)

/-- Counterexample to C6 as stated: with performance list [1] and
quantization factor 2, `get_quanta` yields the quantum GCD * factor = 2,
and 2 does not divide the performance value 1 — so the quantum need not
divide the performance values. -/
theorem c6_counterexample :
    get_quanta [[1]] 2 = some [2] ∧ ¬ ((2 : ℕ) ∣ 1) := by
  constructor
  · decide
  · decide

/-- C6 amended: each application's quantum equals the greatest common
divisor of its performance values multiplied by the quantization factor
(the folded value really is the greatest common divisor: it divides every
performance value, and every common divisor of the values divides it), and
the quantum divides every performance value scaled by the factor — not, in
general, the performance value itself. -/
theorem c6_amended_quantum_is_gcd_times_factor (pl : List (List ℕ)) (f : ℕ)
    (qs : List ℕ) (h : get_quanta pl f = some qs) :
    qs.length = pl.length ∧
    ∀ i, i < pl.length →
      ∃ g, reduceGcd (pl.getD i []) = some g ∧
        qs.getD i 0 = g * f ∧
        (∀ p ∈ pl.getD i [], g ∣ p) ∧
        (∀ d, (∀ p ∈ pl.getD i [], d ∣ p) → d ∣ g) ∧
        (∀ p ∈ pl.getD i [], qs.getD i 0 ∣ p * f) := by
  unfold get_quanta at h
  obtain ⟨gs, hgs, rfl⟩ := Option.map_eq_some'.mp h
  obtain ⟨hlen, hpt⟩ := mapOpt_getD [] 0 hgs
  constructor
  · simp [hlen]
  · intro i hi
    have hig : i < gs.length := hlen ▸ hi
    have hrel := hpt i hi
    cases hplc : pl.getD i [] with
    | nil =>
      rw [hplc] at hrel
      cases hrel
    | cons x xs =>
      rw [hplc] at hrel
      have hg : xs.foldl Nat.gcd x = gs.getD i 0 := Option.some_inj.mp hrel
      refine ⟨gs.getD i 0, hrel, ?_, ?_, ?_, ?_⟩
      · rw [List.getD_eq_getElem _ _ (by simpa [hlen] using hig),
          List.getElem_map]
        rw [List.getD_eq_getElem _ _ hig]
      · intro p hp
        rw [← hg]
        rcases List.mem_cons.mp hp with rfl | hp
        · exact (foldl_gcd_dvd xs p).1
        · exact (foldl_gcd_dvd xs x).2 p hp
      · intro d hd
        rw [← hg]
        exact dvd_foldl_gcd xs x d (hd x (by simp))
          (fun p hp => hd p (by simp [hp]))
      · intro p hp
        have hq : (gs.map (fun q => q * f)).getD i 0 = gs.getD i 0 * f := by
          rw [List.getD_eq_getElem _ _ (by simpa [hlen] using hig),
            List.getElem_map, List.getD_eq_getElem _ _ hig]
        rw [hq, ← hg]
        have hgp : xs.foldl Nat.gcd x ∣ p := by
          rcases List.mem_cons.mp hp with rfl | hp
          · exact (foldl_gcd_dvd xs p).1
          · exact (foldl_gcd_dvd xs x).2 p hp
        exact mul_dvd_mul hgp (dvd_refl f)

/-- Witness for C6 (amended): performances [4, 6] with factor 3 give
quantum 6 = gcd(4, 6) * 3. -/
theorem c6_amended_quantum_is_gcd_times_factor_witness :
    get_quanta [[4, 6]] 3 = some [6] ∧ ([6] : List ℕ).length = [[4, 6]].length :=
  ⟨by decide,
    (c6_amended_quantum_is_gcd_times_factor [[4, 6]] 3 [6] (by decide)).1⟩

/-- C10: when the ECU lookup for an instance class's type fails — no row of
the table has that type, or the first such row's ECU cell is non-numeric —
`get_perfs` does not fail: the class is mapped with the caller-supplied
private-cloud default, so each app's performance is its per-ECU baseline
times the default ECU count times the performance factor. -/
theorem c10_ecu_default_on_failed_lookup (data : List Row)
    (ics : List InstanceClass) (apps : List String) (perf_factor : ℕ)
    (perfs_per_ecu : List ℕ) (priv_ecus : ℕ) (ic : InstanceClass)
    (hic : ic ∈ ics)
    (hecu : (data.find? (fun r => r.type_ == ic.name)).bind (fun r => r.ecu) = none) :
    (ic, (apps.zip perfs_per_ecu).map
        (fun ap => (ap.1, ap.2 * priv_ecus * perf_factor))) ∈
      get_perfs data ics apps perf_factor perfs_per_ecu priv_ecus := by
  unfold get_perfs
  have he : ecuFor data ic.name priv_ecus = priv_ecus := by
    unfold ecuFor
    rw [hecu]
  refine List.mem_map.mpr ⟨ic, hic, ?_⟩
  rw [he]

/-- Witness for C10: class "t" whose first matching row (`wRow1yr`) has a
non-numeric ECU cell; with baseline 7, default 5 and factor 2 the app's
performance is 70. -/
theorem c10_ecu_default_on_failed_lookup_witness :
    (wIc, [("a0", 70)]) ∈ get_perfs [wRow1yr, wRowOd] [wIc] ["a0"] 2 [7] 5 :=
  c10_ecu_default_on_failed_lookup [wRow1yr, wRowOd] [wIc] ["a0"] 2 [7] 5 wIc
    (List.Mem.head _) rfl

theorem digChar_ne (d : ℕ) : digChar d ≠ 'Z' ∧ digChar d ≠ '_' := by
  match d with
  | 0 | 1 | 2 | 3 | 4 | 5 | 6 | 7 | 8 => exact ⟨by decide, by decide⟩
  | n + 9 =>
    show ('9' : Char) ≠ 'Z' ∧ ('9' : Char) ≠ '_'
    exact ⟨by decide, by decide⟩

theorem digVal_digChar {d : ℕ} (h : d < 10) : digVal (digChar d) = d := by
  interval_cases d <;> decide

theorem natStrGo_append (fuel : ℕ) : ∀ (n : ℕ) (acc : List Char),
    natStrGo fuel n acc = natStrGo fuel n [] ++ acc := by
  induction fuel with
  | zero => intro n acc; rfl
  | succ fuel ih =>
    intro n acc
    simp only [natStrGo]
    by_cases h : n < 10
    · rw [if_pos h, if_pos h]
      rfl
    · rw [if_neg h, if_neg h, ih (n / 10) (digChar (n % 10) :: acc),
        ih (n / 10) [digChar (n % 10)]]
      simp

theorem natStrGo_spec : ∀ fuel n, n < fuel →
    listVal (natStrGo fuel n []) = n ∧
    natStrGo fuel n [] ≠ [] ∧
    ∀ c ∈ natStrGo fuel n [], ∃ d, c = digChar d := by
  intro fuel
  induction fuel with
  | zero => intro n h; omega
  | succ fuel ih =>
    intro n h
    by_cases h10 : n < 10
    · have he : natStrGo (fuel + 1) n [] = [digChar n] := by
        simp only [natStrGo]
        rw [if_pos h10]
      rw [he]
      refine ⟨?_, by simp, ?_⟩
      · show (0 * 10 + digVal (digChar n)) = n
        rw [digVal_digChar h10]
        omega
      · intro c hc
        simp only [List.mem_singleton] at hc
        exact ⟨n, hc⟩
    · have he : natStrGo (fuel + 1) n [] =
          natStrGo fuel (n / 10) [] ++ [digChar (n % 10)] := by
        simp only [natStrGo]
        rw [if_neg h10, natStrGo_append]
      have hlt : n / 10 < fuel := by
        have := Nat.div_lt_self (by omega : 0 < n) (by omega : 1 < 10)
        omega
      obtain ⟨hv, hne, hd⟩ := ih (n / 10) hlt
      rw [he]
      refine ⟨?_, by simp, ?_⟩
      · unfold listVal
        rw [List.foldl_append]
        show listVal (natStrGo fuel (n / 10) []) * 10 +
            digVal (digChar (n % 10)) = n
        rw [hv, digVal_digChar (Nat.mod_lt n (by omega))]
        omega
      · intro c hc
        rcases List.mem_append.mp hc with hc | hc
        · exact hd c hc
        · simp only [List.mem_singleton] at hc
          exact ⟨n % 10, hc⟩

theorem natStr_inj {m n : ℕ} (h : natStr m = natStr n) : m = n := by
  have hd : natStrGo (m + 1) m [] = natStrGo (n + 1) n [] :=
    congrArg String.data h
  have hm := (natStrGo_spec (m + 1) m (by omega)).1
  have hn := (natStrGo_spec (n + 1) n (by omega)).1
  rw [← hm, ← hn, hd]

theorem natStr_ne_nil (n : ℕ) : (natStr n).data ≠ [] :=
  (natStrGo_spec (n + 1) n (by omega)).2.1

theorem natStr_chars (n : ℕ) :
    ∀ c ∈ (natStr n).data, c ≠ 'Z' ∧ c ≠ '_' := by
  intro c hc
  obtain ⟨d, rfl⟩ := (natStrGo_spec (n + 1) n (by omega)).2.2 c hc
  exact digChar_ne d

theorem str_data_inj : ∀ {a b : String}, a.data = b.data → a = b := by
  intro a b h
  cases a
  cases b
  exact congrArg String.mk h

theorem before_marker_inj : ∀ {n1 n2 t1 t2 : List Char},
    (∀ c ∈ n1, c ≠ 'Z') → (∀ c ∈ n2, c ≠ 'Z') →
    n1 ++ 'Z' :: t1 = n2 ++ 'Z' :: t2 → n1 = n2 ∧ t1 = t2 := by
  intro n1
  induction n1 with
  | nil =>
    intro n2 t1 t2 h1 h2 h
    cases n2 with
    | nil => simpa using h
    | cons b bs =>
      simp only [List.nil_append, List.cons_append, List.cons.injEq] at h
      exact absurd h.1.symm (h2 b (by simp))
  | cons a as ih =>
    intro n2 t1 t2 h1 h2 h
    cases n2 with
    | nil =>
      simp only [List.nil_append, List.cons_append, List.cons.injEq] at h
      exact absurd h.1 (h1 a (by simp))
    | cons b bs =>
      simp only [List.cons_append, List.cons.injEq] at h
      obtain ⟨rfl, h⟩ := h
      obtain ⟨h3, h4⟩ := ih (fun c hc => h1 c (by simp [hc]))
        (fun c hc => h2 c (by simp [hc])) h
      exact ⟨by rw [h3], h4⟩

theorem rev_shape (i r_ : String) (m : ℕ) :
    ((i ++ "_" ++ r_ ++ "_" ++ (r_ ++ "_AZ" ++ natStr m)).data).reverse =
      (natStr m).data.reverse ++ 'Z' :: 'A' :: '_' ::
        (r_.data.reverse ++ '_' :: (r_.data.reverse ++ '_' :: i.data.reverse)) := by
  have e1 : ("_" : String).data = ['_'] := rfl
  have e2 : ("_AZ" : String).data = ['_', 'A', 'Z'] := rfl
  simp only [String.data_append, e1, e2, List.reverse_append,
    List.reverse_cons, List.reverse_nil, List.nil_append, List.cons_append,
    List.append_assoc, List.singleton_append]

theorem resId_inj {r_ i1 i2 : String} {m1 m2 : ℕ}
    (h : i1 ++ "_" ++ r_ ++ "_" ++ (r_ ++ "_AZ" ++ natStr m1) =
         i2 ++ "_" ++ r_ ++ "_" ++ (r_ ++ "_AZ" ++ natStr m2)) :
    i1 = i2 ∧ m1 = m2 := by
  have hd := congrArg (fun s : String => s.data.reverse) h
  simp only at hd
  rw [rev_shape i1 r_ m1, rev_shape i2 r_ m2] at hd
  obtain ⟨hn, ht⟩ := before_marker_inj
    (fun c hc => (natStr_chars m1 c (List.mem_reverse.mp hc)).1)
    (fun c hc => (natStr_chars m2 c (List.mem_reverse.mp hc)).1) hd
  constructor
  · simp only [List.cons.injEq, true_and] at ht
    have ht2 := List.append_cancel_left ht
    simp only [List.cons.injEq, true_and] at ht2
    have ht3 := List.append_cancel_left ht2
    simp only [List.cons.injEq, true_and] at ht3
    exact str_data_inj (List.reverse_injective ht3)
  · have : (natStr m1).data = (natStr m2).data := List.reverse_injective hn
    exact natStr_inj (str_data_inj this)

theorem odId_inj {r_ i1 i2 : String} (h : i1 ++ "_" ++ r_ = i2 ++ "_" ++ r_) :
    i1 = i2 := by
  have hd := congrArg String.data h
  simp only [String.data_append] at hd
  have h2 := List.append_cancel_right hd
  have h3 := List.append_cancel_right h2
  exact str_data_inj h3

theorem uCount_zero {l : List Char} (h : ¬ '_' ∈ l) :
    List.countP (fun c => c == '_') l = 0 :=
  List.countP_eq_zero.mpr (fun a ha hp => h (by
    have : a = '_' := by simpa using hp
    rwa [this] at ha))

theorem odId_ne_resId {r_ i1 i2 : String} {m : ℕ}
    (hu1 : ¬ '_' ∈ i1.data) (hu2 : ¬ '_' ∈ i2.data) :
    i1 ++ "_" ++ r_ ≠ i2 ++ "_" ++ r_ ++ "_" ++ (r_ ++ "_AZ" ++ natStr m) := by
  intro h
  have hd := congrArg (fun s : String => uCount s.data) h
  simp only [uCount, String.data_append, List.countP_append] at hd
  have c1 := uCount_zero hu1
  have c2 := uCount_zero hu2
  have c3 : List.countP (fun c => c == '_') ("_" : String).data = 1 := by decide
  have c4 : List.countP (fun c => c == '_') ("_AZ" : String).data = 1 := by decide
  have c5 : List.countP (fun c => c == '_') (natStr m).data = 0 :=
    List.countP_eq_zero.mpr (fun a ha hp => by
      have ha2 : a = '_' := by simpa using hp
      exact (natStr_chars m a ha).2 ha2)
  rw [c1, c2, c3, c4, c5] at hd
  omega

theorem filterMap_const_none {α β : Type} (l : List α) :
    l.filterMap (fun _ => (none : Option β)) = [] := by
  induction l with
  | nil => rfl
  | cons a t ih => simp [List.filterMap_cons, ih]

theorem filterMap_const_some {α β : Type} (l : List α) (g : α → β) :
    l.filterMap (fun a => some (g a)) = l.map g := by
  induction l with
  | nil => rfl
  | cons a t ih => simp [List.filterMap_cons, ih]

theorem mem_odEntries {data : List Row} {r_ : String} {mt mg : ℕ}
    {names : List String} {e : InstanceClass} :
    e ∈ odEntries data r_ mt mg names ↔
      ∃ i ∈ names, ∃ p, odPriceOf data r_ i = some p ∧
        e = mkOd r_ mg i p mt := by
  unfold odEntries
  rw [List.mem_filterMap]
  constructor
  · rintro ⟨i, hi, hf⟩
    rw [Option.map_eq_some'] at hf
    obtain ⟨p, hp, he⟩ := hf
    exact ⟨i, hi, p, hp, he.symm⟩
  · rintro ⟨i, hi, p, hp, rfl⟩
    exact ⟨i, hi, by rw [hp]; rfl⟩

theorem mem_resEntries {data : List Row} {r_ : String} {mg az : ℕ}
    {names : List String} {e : InstanceClass} :
    e ∈ resEntries data r_ mg az names ↔
      ∃ i ∈ names, ∃ p, resPriceOf data r_ i = some p ∧
        ∃ z, z < az ∧ e = mkRes r_ i p (zoneLS r_ mg (z + 1)) := by
  unfold resEntries
  rw [List.mem_flatten]
  constructor
  · rintro ⟨L, hL, heL⟩
    rw [List.mem_map] at hL
    obtain ⟨i, hi, rfl⟩ := hL
    rw [List.mem_filterMap] at heL
    obtain ⟨zone, hz, hf⟩ := heL
    rw [Option.map_eq_some'] at hf
    obtain ⟨p, hp, he⟩ := hf
    unfold zonesOf at hz
    rw [List.mem_map] at hz
    obtain ⟨z, hz2, rfl⟩ := hz
    rw [List.mem_range] at hz2
    exact ⟨i, hi, p, hp, z, hz2, he.symm⟩
  · rintro ⟨i, hi, p, hp, z, hz, rfl⟩
    refine ⟨_, List.mem_map_of_mem _ hi, ?_⟩
    rw [List.mem_filterMap]
    refine ⟨zoneLS r_ mg (z + 1), ?_, by rw [hp]; rfl⟩
    unfold zonesOf
    exact List.mem_map_of_mem _ (List.mem_range.mpr hz)

theorem mem_generate {data : List Row} {r_ : String} {mt mg az : ℕ}
    {names : List String} {e : InstanceClass} :
    e ∈ generate_amazon_region_instances data r_ mt mg az names ↔
      e ∈ odEntries data r_ mt mg (sortedNames names) ∨
      e ∈ resEntries data r_ mg az (sortedNames names) := by
  unfold generate_amazon_region_instances
  exact List.mem_append

theorem regionLS_ne_zoneLS (r_ : String) (mg mg2 z : ℕ) :
    regionLS r_ mg ≠ zoneLS r_ mg2 z := by
  intro h
  have hid : r_ = r_ ++ "_AZ" ++ natStr z := congrArg LimitingSet.id h
  have hd := congrArg (fun s : String => s.data.length) hid
  simp only [String.data_append, List.length_append] at hd
  have h1 : ("_AZ" : String).data.length = 3 := by decide
  have h2 : (natStr z).data.length ≠ 0 := by
    intro h0
    exact natStr_ne_nil z (List.length_eq_zero.mp h0)
  omega

/-- C3: in every one-region catalog, each on-demand entry carries exactly
the one region-level constraint — the same limiting set value for every
on-demand entry of the region, as the source constructs it once and shares
it by reference — each reserved entry carries exactly one constraint, the
one of its availability zone, and an on-demand entry never shares a
constraint with a reserved entry. -/
theorem c3_constraint_structure (data : List Row) (r_ : String)
    (mt mg az : ℕ) (names : List String) :
    (∀ e ∈ generate_amazon_region_instances data r_ mt mg az names,
      e.limiting_sets.length = 1 ∧
      (e.is_reserved = false → e.limiting_sets = [regionLS r_ mg]) ∧
      (e.is_reserved = true →
        ∃ z, z < az ∧ e.limiting_sets = [zoneLS r_ mg (z + 1)])) ∧
    (∀ e1 ∈ generate_amazon_region_instances data r_ mt mg az names,
      ∀ e2 ∈ generate_amazon_region_instances data r_ mt mg az names,
        e1.is_reserved = false → e2.is_reserved = true →
        ∀ c1 ∈ e1.limiting_sets, ∀ c2 ∈ e2.limiting_sets, c1 ≠ c2) := by
  constructor
  · intro e he
    rcases mem_generate.mp he with h | h
    · obtain ⟨i, -, p, -, rfl⟩ := mem_odEntries.mp h
      refine ⟨rfl, fun _ => rfl, fun hq => ?_⟩
      cases hq
    · obtain ⟨i, -, p, -, z, hz, rfl⟩ := mem_resEntries.mp h
      refine ⟨rfl, fun hq => ?_, fun _ => ⟨z, hz, rfl⟩⟩
      cases hq
  · intro e1 he1 e2 he2 hr1 hr2 c1 hc1 c2 hc2
    have h1 : c1 = regionLS r_ mg := by
      rcases mem_generate.mp he1 with h | h
      · obtain ⟨i, -, p, -, rfl⟩ := mem_odEntries.mp h
        simpa [mkOd] using hc1
      · obtain ⟨i, -, p, -, z, -, rfl⟩ := mem_resEntries.mp h
        cases hr1
    have h2 : ∃ z, c2 = zoneLS r_ mg (z + 1) := by
      rcases mem_generate.mp he2 with h | h
      · obtain ⟨i, -, p, -, rfl⟩ := mem_odEntries.mp h
        cases hr2
      · obtain ⟨i, -, p, -, z, -, rfl⟩ := mem_resEntries.mp h
        exact ⟨z, by simpa [mkRes] using hc2⟩
    obtain ⟨z, rfl⟩ := h2
    rw [h1]
    exact regionLS_ne_zoneLS r_ mg mg (z + 1)

/-- Witness for C3: in the concrete two-row catalog for region "R" with
one zone, the on-demand entry's constraint set is exactly the region
limiting set, and the region limiting set differs from the zone limiting
set carried by the reserved entry. -/
theorem c3_constraint_structure_witness :
    wOdEntry.limiting_sets = [regionLS "R" 7] ∧
    regionLS "R" 7 ≠ zoneLS "R" 7 1 := by
  have hm1 : wOdEntry ∈
      generate_amazon_region_instances [wRow1yr, wRowOd] "R" 5 7 1 ["t"] :=
    List.Mem.head _
  have hm2 : wResEntry ∈
      generate_amazon_region_instances [wRow1yr, wRowOd] "R" 5 7 1 ["t"] :=
    List.Mem.tail _ (List.Mem.head _)
  have hc1 : regionLS "R" 7 ∈ wOdEntry.limiting_sets := List.Mem.head _
  have hc2 : zoneLS "R" 7 1 ∈ wResEntry.limiting_sets := List.Mem.head _
  have h1 := ((c3_constraint_structure [wRow1yr, wRowOd] "R" 5 7 1 ["t"]).1
    wOdEntry hm1).2.1 rfl
  have h2 := (c3_constraint_structure [wRow1yr, wRowOd] "R" 5 7 1 ["t"]).2
    wOdEntry hm1 wResEntry hm2 rfl rfl (regionLS "R" 7) hc1
    (zoneLS "R" 7 1) hc2
  exact ⟨h1, h2⟩

theorem gen_cap_eq {data : List Row} {r_ : String} {mt mg az : ℕ}
    {names : List String} :
    ∀ e ∈ generate_amazon_region_instances data r_ mt mg az names,
      ∀ c ∈ e.limiting_sets, c.max_vms = mg := by
  intro e he c hc
  rcases mem_generate.mp he with h | h
  · obtain ⟨i, -, p, -, rfl⟩ := mem_odEntries.mp h
    have : c = regionLS r_ mg := by simpa [mkOd] using hc
    rw [this]
    rfl
  · obtain ⟨i, -, p, -, z, -, rfl⟩ := mem_resEntries.mp h
    have : c = zoneLS r_ mg (z + 1) := by simpa [mkRes] using hc
    rw [this]
    rfl

/-- Counterexample to C5 as stated: the builder has no separate
per-region-on-demand and per-zone-reserved cap parameters — the region
constraint and every zone constraint always carry the same
`max_inst_per_group` cap, so no call can make an on-demand entry's
constraint cap differ from a reserved entry's constraint cap. -/
theorem c5_counterexample :
    ¬ ∃ (data : List Row) (r_ : String) (mt mg az : ℕ)
      (names : List String) (e1 e2 : InstanceClass) (c1 c2 : LimitingSet),
      e1 ∈ generate_amazon_region_instances data r_ mt mg az names ∧
      e2 ∈ generate_amazon_region_instances data r_ mt mg az names ∧
      e1.is_reserved = false ∧ e2.is_reserved = true ∧
      c1 ∈ e1.limiting_sets ∧ c2 ∈ e2.limiting_sets ∧
      c1.max_vms ≠ c2.max_vms := by
  rintro ⟨data, r_, mt, mg, az, names, e1, e2, c1, c2,
    h1, h2, -, -, hc1, hc2, hne⟩
  have q1 := gen_cap_eq e1 h1 c1 hc1
  have q2 := gen_cap_eq e2 h2 c2 hc2
  exact hne (q1.trans q2.symm)

/-- C5 amended: the builder takes a single shared cap parameter
(`max_inst_per_group`): the region-level constraint's `max_vms` and every
zone-level constraint's `max_vms` both equal it; `max_inst_per_type` only
sets the per-entry local maximum of on-demand entries. -/
theorem c5_amended_single_cap_parameter (data : List Row) (r_ : String)
    (mt mg az : ℕ) (names : List String) :
    ∀ e ∈ generate_amazon_region_instances data r_ mt mg az names,
      ∀ c ∈ e.limiting_sets, c.max_vms = mg :=
  gen_cap_eq

/-- Witness for C5 (amended): in the concrete catalog with
`max_inst_per_type` 5 and `max_inst_per_group` 7, the on-demand entry's
constraint cap is 7. -/
theorem c5_amended_single_cap_parameter_witness :
    (regionLS "R" 7).max_vms = 7 := by
  have hm1 : wOdEntry ∈
      generate_amazon_region_instances [wRow1yr, wRowOd] "R" 5 7 1 ["t"] :=
    List.Mem.head _
  have hc1 : regionLS "R" 7 ∈ wOdEntry.limiting_sets := List.Mem.head _
  exact c5_amended_single_cap_parameter [wRow1yr, wRowOd] "R" 5 7 1 ["t"]
    wOdEntry hm1 (regionLS "R" 7) hc1

theorem length_insertSorted (a : String) (l : List String) :
    (insertSorted a l).length = l.length + 1 := by
  induction l with
  | nil => rfl
  | cons b t ih => cases h : strLe a b <;> simp [insertSorted, h, ih]

theorem mem_insertSorted {x a : String} {l : List String} :
    x ∈ insertSorted a l ↔ x = a ∨ x ∈ l := by
  induction l with
  | nil => simp [insertSorted]
  | cons b t ih =>
    cases h : strLe a b
    · simp only [insertSorted, h, Bool.false_eq_true, if_false,
        List.mem_cons, ih]
      tauto
    · simp [insertSorted, h, List.mem_cons]

theorem length_pySorted (l : List String) : (pySorted l).length = l.length := by
  induction l with
  | nil => rfl
  | cons a t ih => simp [pySorted, length_insertSorted, ih]

theorem mem_pySorted {x : String} {l : List String} :
    x ∈ pySorted l ↔ x ∈ l := by
  induction l with
  | nil => simp [pySorted]
  | cons a t ih => simp [pySorted, mem_insertSorted, ih, List.mem_cons]

theorem sortedNames_nodup (l : List String) : (sortedNames l).Nodup :=
  List.nodup_dedup _

theorem sortedNames_length_le (l : List String) :
    (sortedNames l).length ≤ l.length := by
  unfold sortedNames
  calc (pySorted l).dedup.length ≤ (pySorted l).length :=
        (List.dedup_sublist _).length_le
    _ = l.length := length_pySorted l

theorem mem_sortedNames {x : String} {l : List String} :
    x ∈ sortedNames l ↔ x ∈ l := by
  unfold sortedNames
  rw [List.mem_dedup, mem_pySorted]

theorem odEntries_not_reserved {data : List Row} {r_ : String} {mt mg : ℕ}
    {names : List String} :
    ∀ e ∈ odEntries data r_ mt mg names, e.is_reserved = false := by
  intro e he
  obtain ⟨i, -, p, -, rfl⟩ := mem_odEntries.mp he
  rfl

theorem resEntries_reserved {data : List Row} {r_ : String} {mg az : ℕ}
    {names : List String} :
    ∀ e ∈ resEntries data r_ mg az names, e.is_reserved = true := by
  intro e he
  obtain ⟨i, -, p, -, z, -, rfl⟩ := mem_resEntries.mp he
  rfl

theorem odEntries_map_id (data : List Row) (r_ : String) (mt mg : ℕ)
    (names : List String) :
    (odEntries data r_ mt mg names).map (fun e => e.id) =
      names.filterMap (fun i =>
        (odPriceOf data r_ i).map (fun _ => i ++ "_" ++ r_)) := by
  unfold odEntries
  rw [List.map_filterMap]
  congr 1
  funext i
  cases odPriceOf data r_ i <;> rfl

theorem nodup_od_ids (data : List Row) (r_ : String) (mt mg : ℕ)
    {names : List String} (hn : names.Nodup) :
    ((odEntries data r_ mt mg names).map (fun e => e.id)).Nodup := by
  rw [odEntries_map_id]
  refine List.Nodup.filterMap ?_ hn
  intro a a' b hb hb'
  rw [Option.mem_def, Option.map_eq_some'] at hb hb'
  obtain ⟨p, -, hbe⟩ := hb
  obtain ⟨p', -, hbe'⟩ := hb'
  exact odId_inj (hbe.trans hbe'.symm)

theorem resEntries_map_id (data : List Row) (r_ : String) (mg az : ℕ)
    (names : List String) :
    (resEntries data r_ mg az names).map (fun e => e.id) =
      (names.map (fun i =>
        (zonesOf r_ mg az).filterMap (fun zone =>
          (resPriceOf data r_ i).map
            (fun _ => i ++ "_" ++ r_ ++ "_" ++ zone.name)))).flatten := by
  unfold resEntries
  rw [List.map_flatten, List.map_map]
  refine congrArg List.flatten (List.map_congr_left ?_)
  intro i _
  simp only [Function.comp_apply]
  rw [List.map_filterMap]
  congr 1
  funext zone
  cases resPriceOf data r_ i <;> rfl

theorem mem_res_ids {data : List Row} {r_ : String} {mg az : ℕ}
    {i b : String}
    (hb : b ∈ (zonesOf r_ mg az).filterMap (fun zone =>
        (resPriceOf data r_ i).map
          (fun _ => i ++ "_" ++ r_ ++ "_" ++ zone.name))) :
    ∃ z, z < az ∧
      b = i ++ "_" ++ r_ ++ "_" ++ (r_ ++ "_AZ" ++ natStr (z + 1)) := by
  rw [List.mem_filterMap] at hb
  obtain ⟨zone, hz, hf⟩ := hb
  rw [Option.map_eq_some'] at hf
  obtain ⟨p, -, hbe⟩ := hf
  unfold zonesOf at hz
  rw [List.mem_map] at hz
  obtain ⟨z, hz2, rfl⟩ := hz
  rw [List.mem_range] at hz2
  exact ⟨z, hz2, hbe.symm⟩

theorem nodup_res_ids (data : List Row) (r_ : String) (mg az : ℕ)
    {names : List String} (hn : names.Nodup) :
    ((resEntries data r_ mg az names).map (fun e => e.id)).Nodup := by
  rw [resEntries_map_id, List.nodup_flatten]
  constructor
  · intro L hL
    rw [List.mem_map] at hL
    obtain ⟨i, -, rfl⟩ := hL
    cases hres : resPriceOf data r_ i with
    | none =>
      rw [show (fun zone : LimitingSet =>
          (none : Option ℚ).map
            (fun _ => i ++ "_" ++ r_ ++ "_" ++ zone.name)) =
          (fun _ => (none : Option String)) from rfl]
      rw [filterMap_const_none]
      exact List.nodup_nil
    | some p =>
      rw [show (fun zone : LimitingSet =>
          (some p).map (fun _ => i ++ "_" ++ r_ ++ "_" ++ zone.name)) =
          (fun zone : LimitingSet =>
            some (i ++ "_" ++ r_ ++ "_" ++ zone.name)) from rfl]
      rw [filterMap_const_some]
      unfold zonesOf
      rw [List.map_map]
      refine (List.nodup_range az).map ?_
      intro z1 z2 h
      simp only [Function.comp_apply, zoneLS] at h
      have := (resId_inj h).2
      omega
  · have hp : names.Pairwise (fun a b => a ≠ b) := hn
    refine List.Pairwise.map _ ?_ hp
    intro a b hab
    intro x hxa hxb
    obtain ⟨z1, -, rfl⟩ := mem_res_ids hxa
    obtain ⟨z2, -, heq⟩ := mem_res_ids hxb
    exact hab (resId_inj heq).1

theorem od_res_ids_disjoint (data : List Row) (r_ : String) (mt mg az : ℕ)
    {names : List String} (hu : ∀ nm ∈ names, ¬ '_' ∈ nm.data) :
    List.Disjoint
      ((odEntries data r_ mt mg names).map (fun e => e.id))
      ((resEntries data r_ mg az names).map (fun e => e.id)) := by
  rw [odEntries_map_id, resEntries_map_id]
  intro b hb hb2
  rw [List.mem_filterMap] at hb
  obtain ⟨i, hi, hf⟩ := hb
  rw [Option.map_eq_some'] at hf
  obtain ⟨p, -, hbe⟩ := hf
  rw [List.mem_flatten] at hb2
  obtain ⟨L, hL, hbL⟩ := hb2
  rw [List.mem_map] at hL
  obtain ⟨j, hj, rfl⟩ := hL
  obtain ⟨z, -, hbe2⟩ := mem_res_ids hbL
  exact odId_ne_resId (hu i hi) (hu j hj) (hbe.trans hbe2)

theorem length_odEntries_le (data : List Row) (r_ : String) (mt mg : ℕ)
    (names : List String) :
    (odEntries data r_ mt mg names).length ≤ names.length := by
  unfold odEntries
  exact List.length_filterMap_le _ _

theorem sum_map_le_mul {α : Type} (l : List α) (f : α → ℕ) (k : ℕ)
    (h : ∀ a ∈ l, f a ≤ k) : (l.map f).sum ≤ l.length * k := by
  induction l with
  | nil => simp
  | cons a t ih =>
    simp only [List.map_cons, List.sum_cons, List.length_cons]
    have h1 := ih (fun x hx => h x (by simp [hx]))
    have h2 := h a (by simp)
    have h3 : (t.length + 1) * k = t.length * k + k := by ring
    omega

theorem length_resEntries_le (data : List Row) (r_ : String) (mg az : ℕ)
    (names : List String) :
    (resEntries data r_ mg az names).length ≤ names.length * az := by
  unfold resEntries
  rw [List.length_flatten, List.map_map]
  refine sum_map_le_mul names _ az ?_
  intro i _
  simp only [Function.comp_apply]
  have hlen := List.length_filterMap_le
    (fun zone => (resPriceOf data r_ i).map (fun p => mkRes r_ i p zone))
    (zonesOf r_ mg az)
  have hz : (zonesOf r_ mg az).length = az := by
    unfold zonesOf
    simp
  omega

/-- Counterexample to C4 as stated: with region name "AZ1", one zone, and
the requested instance types "a" (reserved-priced) and "a_AZ1_AZ1"
(on-demand-priced), the builder emits an on-demand entry and a reserved
entry that share the id "a_AZ1_AZ1_AZ1". -/
theorem c4_counterexample :
    ¬ ((generate_amazon_region_instances [cRowOd, cRowRes] "AZ1" 20 20 1
        ["a", "a_AZ1_AZ1"]).map (fun e => e.id)).Nodup := by
  decide

/-- C4 amended: for N requested instance types, one region and Z zones, the
builder emits at most N on-demand entries and at most N * Z reserved
entries, and a type with no on-demand (reserved) price in the region is
silently skipped for that purchase mode — both unconditionally; provided
additionally that no requested instance name contains an underscore, which
the id collision of the counterexample forces, no two emitted entries
share an id. -/
theorem c4_amended_bounds_ids_and_skips (data : List Row) (r_ : String)
    (mt mg az : ℕ) (names : List String) :
    ((generate_amazon_region_instances data r_ mt mg az names).filter
        (fun e => !e.is_reserved)).length ≤ names.length ∧
    ((generate_amazon_region_instances data r_ mt mg az names).filter
        (fun e => e.is_reserved)).length ≤ names.length * az ∧
    ((∀ nm ∈ names, ¬ '_' ∈ nm.data) →
      ((generate_amazon_region_instances data r_ mt mg az names).map
        (fun e => e.id)).Nodup) ∧
    (∀ nm ∈ names, odPriceOf data r_ nm = none →
      ∀ e ∈ generate_amazon_region_instances data r_ mt mg az names,
        ¬ (e.is_reserved = false ∧ e.name = nm)) ∧
    (∀ nm ∈ names, resPriceOf data r_ nm = none →
      ∀ e ∈ generate_amazon_region_instances data r_ mt mg az names,
        ¬ (e.is_reserved = true ∧ e.name = nm)) := by
  have hsplit : generate_amazon_region_instances data r_ mt mg az names =
      odEntries data r_ mt mg (sortedNames names) ++
        resEntries data r_ mg az (sortedNames names) := rfl
  refine ⟨?_, ?_, ?_, ?_, ?_⟩
  · rw [hsplit, List.filter_append]
    have h1 : (odEntries data r_ mt mg (sortedNames names)).filter
        (fun e => !e.is_reserved) =
          odEntries data r_ mt mg (sortedNames names) :=
      List.filter_eq_self.mpr
        (fun e he => by rw [odEntries_not_reserved e he]; rfl)
    have h2 : (resEntries data r_ mg az (sortedNames names)).filter
        (fun e => !e.is_reserved) = [] :=
      List.filter_eq_nil_iff.mpr
        (fun e he => by rw [resEntries_reserved e he]; simp)
    rw [h1, h2]
    simp only [List.length_append, List.length_nil]
    have ha := length_odEntries_le data r_ mt mg (sortedNames names)
    have hb := sortedNames_length_le names
    omega
  · rw [hsplit, List.filter_append]
    have h1 : (odEntries data r_ mt mg (sortedNames names)).filter
        (fun e => e.is_reserved) = [] :=
      List.filter_eq_nil_iff.mpr
        (fun e he => by rw [odEntries_not_reserved e he]; simp)
    have h2 : (resEntries data r_ mg az (sortedNames names)).filter
        (fun e => e.is_reserved) =
          resEntries data r_ mg az (sortedNames names) :=
      List.filter_eq_self.mpr (fun e he => resEntries_reserved e he)
    rw [h1, h2]
    simp only [List.length_append, List.length_nil]
    have ha := length_resEntries_le data r_ mg az (sortedNames names)
    have hb := Nat.mul_le_mul_right az (sortedNames_length_le names)
    omega
  · intro hu
    have hmemu : ∀ nm ∈ sortedNames names, ¬ '_' ∈ nm.data :=
      fun nm h => hu nm (mem_sortedNames.mp h)
    rw [hsplit, List.map_append, List.nodup_append]
    exact ⟨nodup_od_ids data r_ mt mg (sortedNames_nodup names),
      nodup_res_ids data r_ mg az (sortedNames_nodup names),
      od_res_ids_disjoint data r_ mt mg az hmemu⟩
  · rintro nm hnm hnone e he ⟨hres, hname⟩
    rcases mem_generate.mp he with h | h
    · obtain ⟨i, -, p, hp, rfl⟩ := mem_odEntries.mp h
      have hin : i = nm := hname
      rw [hin, hnone] at hp
      cases hp
    · rw [resEntries_reserved e h] at hres
      cases hres
  · rintro nm hnm hnone e he ⟨hres, hname⟩
    rcases mem_generate.mp he with h | h
    · rw [odEntries_not_reserved e h] at hres
      cases hres
    · obtain ⟨i, -, p, hp, z, -, rfl⟩ := mem_resEntries.mp h
      have hin : i = nm := hname
      rw [hin, hnone] at hp
      cases hp

/-- Witness for C4 (amended): the concrete two-row, one-name,
underscore-free catalog build has pairwise distinct ids. -/
theorem c4_amended_bounds_ids_and_skips_witness :
    (∀ nm ∈ (["t"] : List String), ¬ '_' ∈ nm.data) ∧
    ((generate_amazon_region_instances [wRow1yr, wRowOd] "R" 5 7 1
        ["t"]).map (fun e => e.id)).Nodup :=
  ⟨by decide,
    (c4_amended_bounds_ids_and_skips [wRow1yr, wRowOd] "R" 5 7 1
      ["t"]).2.2.1 (by decide)⟩
